import Mathlib

/-!
Verification of the trackanimation repository core: the data model of GPS
points, the cumulative time-difference calculator (utils.calculate_cum_time_diff),
the frame normalizer (tracking.DFTrack.time_video_normalize), the geometric
interpolation helper (utils.get_point_in_the_middle together with
utils.get_bearing and utils.get_coordinates) and DFTrack.concat_dfts.

Numbers held in dataframe columns are modelled as rationals (exact arithmetic
in place of float64), timestamps as integers (seconds), dataframes as lists of
records in row order.  Python exceptions are modelled with an Except monad:
a raised exception aborts the whole computation and carries an error tag.
-/

namespace TrackAnim

/-- One GPS sample: one row of the DFTrack dataframe, with the columns built by
ReadTrack.read_gpx_file (tracking.py lines 422-423). -/
structure Point where
  codeRoute : String
  latitude : ℚ
  longitude : ℚ
  altitude : ℚ
  date : ℤ
  speed : ℚ
  timeDifference : ℚ
  distance : ℚ
  fileName : Option String
deriving DecidableEq, Repr

/-- A row after utils.calculate_cum_time_diff added the CumTimeDiff column. -/
structure CumPoint extends Point where
  cumTimeDiff : ℚ
deriving DecidableEq, Repr

/-- A row produced by DFTrack.time_video_normalize: the VideoFrame column is
always present, the CumTimeDiff column is present only on the general branch
(the time equal zero branch tags the raw rows, which carry no CumTimeDiff). -/
structure NormPoint extends Point where
  cumTimeDiff : Option ℚ
  videoFrame : ℕ
deriving DecidableEq, Repr

/-- Python exceptions that the modelled code can raise. -/
inductive PyErr where
  | zeroDiv
  | attrErr
deriving DecidableEq, Repr

/-- Tags a CumPoint row with a VideoFrame value, keeping every other column:
models the pandas column assignment in tracking.py lines 283 and 305. -/
def setVF (i : ℕ) (p : CumPoint) : NormPoint :=
  { toPoint := p.toPoint, cumTimeDiff := some p.cumTimeDiff, videoFrame := i }

/-- Order-of-first-appearance deduplication: models the pandas Series.unique
call used on the CodeRoute column (tracking.py line 271, utils.py line 168). -/
def uniqueList : List String → List String
  | [] => []
  | a :: l => a :: uniqueList (l.filter (fun b => b ≠ a))
termination_by l => l.length
decreasing_by
  simp only [List.length_cons]
  exact Nat.lt_succ_of_le (List.length_filter_le _ _)

/-- Running-sum annotation of one route partition: models the pandas cumsum
applied to the TimeDifference column of one route slice (utils.py line 173). -/
def cumsum (acc : ℚ) : List Point → List CumPoint
  | [] => []
  | p :: ps => { toPoint := p, cumTimeDiff := acc + p.timeDifference } :: cumsum (acc + p.timeDifference) ps

/-- Embeds utils.calculate_cum_time_diff (utils.py lines 160-178): the rows are
regrouped by CodeRoute in order of first appearance and every group receives a
CumTimeDiff column holding the running sum of its TimeDifference values. -/
def calculate_cum_time_diff (rows : List Point) : List CumPoint :=
  (uniqueList (rows.map (·.codeRoute))).flatMap
    (fun name => cumsum 0 (rows.filter (fun p => p.codeRoute = name)))

/-- Insertion of a point into a list sorted by ascending date. -/
def insertByDate (p : Point) : List Point → List Point
  | [] => [p]
  | q :: l => if p.date ≤ q.date then p :: q :: l else q :: insertByDate p l

/-- One possible result of the pandas sort_values call of tracking.py line
269: an insertion sort realising one particular tie-breaking of equal dates.
The pandas default quicksort is not stable, so on tied dates the program may
return any date-sorted permutation of the rows; this definition is only one
representative, and every property that is sensitive to the tie-breaking is
stated below over all lists satisfying IsDateSorted instead. -/
def sortByDate : List Point → List Point
  | [] => []
  | p :: l => insertByDate p (sortByDate l)

/-- All possible results of the pandas sort_values call of tracking.py line
269 on a given input: any permutation of the rows that is non-decreasing in
the Date column.  The default pandas quicksort is not stable, so nothing more
than this is guaranteed about the sorted dataframe. -/
def IsDateSorted (rows sorted : List Point) : Prop :=
  sorted.Perm rows ∧ sorted.Pairwise (fun a b => a.date ≤ b.date)

/-- Embeds utils.get_point_in_the_middle (utils.py lines 96-135).  The
function first divides by the TimeDifference of the end row (line 112, a
ZeroDivisionError when that value is zero), then divides by
time_diff_proportion when computing speed (line 116, a ZeroDivisionError when
that value is zero).  When both divisions go through, the date expression of
lines 121-124 evaluates the attribute chain datetime.datetime.timedelta; the
datetime class of the datetime module has no timedelta attribute, so every
surviving call raises an AttributeError there and the function never returns
a row.  The values computed before that line are modelled separately below as
time_proportionOf, speedOf and friends. -/
def get_point_in_the_middle (s e : CumPoint) (time_diff : ℚ) (point_idx : ℕ) :
    Except PyErr NormPoint :=
  if e.timeDifference = 0 then .error .zeroDiv
  else
    let time_proportion := (time_diff * (point_idx : ℚ)) / e.timeDifference
    let time_diff_proportion := e.timeDifference * time_proportion
    if time_diff_proportion = 0 then .error .zeroDiv
    else
      let _ := s
      .error .attrErr

/-- Window membership for frame index i: models the mask of tracking.py line
290, an interval open at time_diff times (i minus one) and closed at
time_diff times i over the CumTimeDiff column. -/
def inWindow (time_diff : ℚ) (i : ℕ) (p : CumPoint) : Prop :=
  time_diff * ((i : ℚ) - 1) < p.cumTimeDiff ∧ p.cumTimeDiff ≤ time_diff * (i : ℚ)

instance (time_diff : ℚ) (i : ℕ) (p : CumPoint) : Decidable (inWindow time_diff i p) :=
  inferInstanceAs (Decidable (_ ∧ _))

/-- One iteration of the frame loop body of tracking.py lines 286-306 for one
route slice: the rows whose CumTimeDiff falls in window i are all emitted
tagged with VideoFrame i and the counter resets to one; an empty window with
both a start row (last row at or before the window) and an end row (first row
after the window) calls the interpolation, which raises; an empty window
missing either bracket emits nothing and increments the counter. -/
def windowStep (slice : List CumPoint) (time_diff : ℚ) (i : ℕ) (point_idx : ℕ) :
    Except PyErr (List NormPoint × ℕ) :=
  let df_range := slice.filter (fun p => inWindow time_diff i p)
  if df_range.isEmpty then
    match (slice.filter (fun p => p.cumTimeDiff ≤ time_diff * ((i : ℚ) - 1))).getLast?,
          (slice.filter (fun p => time_diff * (i : ℚ) < p.cumTimeDiff)).head? with
    | some s, some e =>
        (get_point_in_the_middle s e time_diff point_idx).map
          (fun row => ([{ row with videoFrame := i }], point_idx + 1))
    | _, _ => .ok ([], point_idx + 1)
  else .ok (df_range.map (setVF i), 1)

/-- Runs windowStep over the given list of frame indices, concatenating the
emitted rows and threading the point_idx counter. -/
def windowLoop (slice : List CumPoint) (time_diff : ℚ) :
    List ℕ → ℕ → Except PyErr (List NormPoint × ℕ)
  | [], point_idx => .ok ([], point_idx)
  | i :: is, point_idx =>
    match windowStep slice time_diff i point_idx with
    | .ok (rows, pid) => (windowLoop slice time_diff is pid).map (fun x => (rows ++ x.1, x.2))
    | .error e => .error e

/-- The route slice taken inside the route loop (tracking.py line 277). -/
def sliceOf (df_cum : List CumPoint) (name : String) : List CumPoint :=
  df_cum.filter (fun p => p.codeRoute = name)

/-- The per-route window width of tracking.py lines 278-279: the total
TimeDifference of the route divided by time, divided by framerate. -/
def tdOf (df_cum : List CumPoint) (time framerate : ℕ) (name : String) : ℚ :=
  ((sliceOf df_cum name).map (·.timeDifference)).sum / (time : ℚ) / (framerate : ℚ)

/-- The frame zero anchor rows of one route (tracking.py lines 281-284): every
row of the slice whose CumTimeDiff is zero, tagged with VideoFrame zero. -/
def frameZeroOf (df_cum : List CumPoint) (name : String) : List NormPoint :=
  ((sliceOf df_cum name).filter (fun p => p.cumTimeDiff = 0)).map (setVF 0)

/-- The route loop of tracking.py lines 276-306: for each route name in order,
emit the frame zero anchors followed by the window rows, threading the
point_idx counter from route to route (the counter is initialised once, before
the loop, at line 274). -/
def routesLoop (df_cum : List CumPoint) (time framerate n_fps : ℕ) :
    List String → ℕ → Except PyErr (List NormPoint)
  | [], _ => .ok []
  | name :: rest, point_idx =>
    match windowLoop (sliceOf df_cum name) (tdOf df_cum time framerate name)
        (List.range' 1 n_fps) point_idx with
    | .ok (rows, pid) =>
        (routesLoop df_cum time framerate n_fps rest pid).map
          (fun out => frameZeroOf df_cum name ++ rows ++ out)
    | .error e => .error e

/-- The sorted, cumulative-time annotated table built by tracking.py lines
269-270 on the general branch of time_video_normalize. -/
def dfCum (rows : List Point) : List CumPoint :=
  calculate_cum_time_diff (sortByDate rows)

/-- Embeds DFTrack.time_video_normalize (tracking.py lines 261-309).  On time
equal zero every raw row is tagged with VideoFrame zero and returned in input
order; otherwise the table is sorted by Date, annotated with CumTimeDiff and
handed to the route loop with n_fps equal to time times framerate. -/
def time_video_normalize (rows : List Point) (time framerate : ℕ) :
    Except PyErr (List NormPoint) :=
  if time = 0 then
    .ok (rows.map (fun p => { toPoint := p, cumTimeDiff := none, videoFrame := 0 }))
  else
    routesLoop (dfCum rows) time framerate (time * framerate)
      (uniqueList ((dfCum rows).map (·.codeRoute))) 1

/-- The general branch of time_video_normalize (tracking.py lines 268-309)
run from a given result of the Date sort: the cumulative annotation followed
by the route loop.  time_video_normalize is this applied to the sortByDate
representative; since the pandas quicksort may return any date-sorted
permutation, sort-order-sensitive properties are stated over
normalizeSorted of every list satisfying IsDateSorted. -/
def normalizeSorted (sorted : List Point) (time framerate : ℕ) :
    Except PyErr (List NormPoint) :=
  routesLoop (calculate_cum_time_diff sorted) time framerate (time * framerate)
    (uniqueList ((calculate_cum_time_diff sorted).map (·.codeRoute))) 1

/-- A Python value handed to DFTrack.concat_dfts: either a DFTrack (holding a
dataframe of points) or a value of any other type, identified by its type
name. -/
inductive PyVal where
  | dft (rows : List Point)
  | other (typeName : String)
deriving DecidableEq, Repr

/-- Normalisation of the df_track parameter at tracking.py lines 378-380: a
value that is not a list becomes a one-element list. -/
def argElems : PyVal ⊕ List PyVal → List PyVal
  | .inl v => [v]
  | .inr vs => vs

/-- The loop of tracking.py lines 385-389: walk the argument list collecting
the dataframes and raise a TrackException, carrying the offending type name,
at the first element that is not a DFTrack. -/
def collectRows : List PyVal → Except String (List (List Point))
  | [] => .ok []
  | .dft rows :: rest => (collectRows rest).map (fun ls => rows :: ls)
  | .other t :: _ => .error t

/-- Embeds DFTrack.concat_dfts (tracking.py lines 364-391): the receiver
dataframe goes first, then the dataframes of the arguments in order; the
pandas concat call with sort set to true reorders columns, never rows. -/
def concat_dfts (self : List Point) (arg : PyVal ⊕ List PyVal) : Except String (List Point) :=
  (collectRows (argElems arg)).map (fun ls => (self :: ls).flatten)

/-- The time_proportion value of utils.py line 112. -/
def time_proportionOf (e : CumPoint) (time_diff : ℚ) (point_idx : ℕ) : ℚ :=
  (time_diff * (point_idx : ℚ)) / e.timeDifference

/-- The distance_proportion value of utils.py line 114. -/
def distance_proportionOf (e : CumPoint) (time_diff : ℚ) (point_idx : ℕ) : ℚ :=
  e.distance * time_proportionOf e time_diff point_idx

/-- The time_diff_proportion value of utils.py line 115. -/
def time_diff_proportionOf (e : CumPoint) (time_diff : ℚ) (point_idx : ℕ) : ℚ :=
  e.timeDifference * time_proportionOf e time_diff point_idx

/-- The speed value of utils.py line 116. -/
def speedOf (e : CumPoint) (time_diff : ℚ) (point_idx : ℕ) : ℚ :=
  distance_proportionOf e time_diff point_idx / time_diff_proportionOf e time_diff point_idx

/-- Geographic point in degrees: the model of geopy.Point, real-valued because
the underlying computations are trigonometric. -/
structure GeoPt where
  lat : ℝ
  lon : ℝ

/-- Conversion of degrees to radians: models math.radians. -/
noncomputable def radians (d : ℝ) : ℝ := d * (Real.pi / 180)

/-- Conversion of radians to degrees: models math.degrees. -/
noncomputable def degreesR (r : ℝ) : ℝ := r * (180 / Real.pi)

/-- Floor-based remainder: models the Python modulo operator on floats. -/
noncomputable def fmodR (a b : ℝ) : ℝ := a - b * (⌊a / b⌋ : ℤ)

open Classical in
/-- Two-argument arctangent with the conventions of math.atan2, including the
value zero at the origin. -/
noncomputable def atan2 (y x : ℝ) : ℝ :=
  if 0 < x then Real.arctan (y / x)
  else if x < 0 ∧ 0 ≤ y then Real.arctan (y / x) + Real.pi
  else if x < 0 ∧ y < 0 then Real.arctan (y / x) - Real.pi
  else if x = 0 ∧ 0 < y then Real.pi / 2
  else if x = 0 ∧ y < 0 then -(Real.pi / 2)
  else 0

open Classical in
/-- Embeds utils.get_bearing (utils.py lines 39-70): the rhumb-line bearing in
degrees from the start point to the end point, with the longitude difference
normalised into the interval from minus pi to pi before use. -/
noncomputable def get_bearing (s e : GeoPt) : ℝ :=
  let start_lat := radians s.lat
  let start_lng := radians s.lon
  let end_lat := radians e.lat
  let end_lng := radians e.lon
  let d0 := end_lng - start_lng
  let d_lng := if Real.pi < |d0| then (if 0 < d0 then -(2 * Real.pi - d0) else 2 * Real.pi + d0) else d0
  let tan_start := Real.tan (start_lat / 2 + Real.pi / 4)
  let tan_end := Real.tan (end_lat / 2 + Real.pi / 4)
  let d_phi := Real.log (tan_end / tan_start)
  fmodR (degreesR (atan2 d_lng d_phi) + 360) 360

/-- Equatorial radius of the WGS84 ellipsoid in kilometers, as in the geopy
ellipsoid table. -/
noncomputable def wgs84a : ℝ := 6378.137

/-- Flattening of the WGS84 ellipsoid, as in the geopy ellipsoid table. -/
noncomputable def wgs84f : ℝ := 1 / 298.257223563

/-- One step of the direct Vincenty fixed-point iteration for sigma. -/
noncomputable def sigmaStep (bigB sigma1 sbA sigma : ℝ) : ℝ :=
  sbA + bigB * Real.sin sigma *
    (Real.cos (2 * sigma1 + sigma) + bigB / 4 *
      (Real.cos sigma * (-1 + 2 * Real.cos (2 * sigma1 + sigma) ^ 2) -
        bigB / 6 * Real.cos (2 * sigma1 + sigma) * (-3 + 4 * Real.sin sigma ^ 2) *
          (-3 + 4 * Real.cos (2 * sigma1 + sigma) ^ 2)))

/-- Fuel-indexed iteration of sigmaStep, starting from the first
approximation. -/
noncomputable def sigmaIter (bigB sigma1 sbA : ℝ) : ℕ → ℝ
  | 0 => sbA
  | n + 1 => sigmaStep bigB sigma1 sbA (sigmaIter bigB sigma1 sbA n)

/-- Modelled from the spec: the destination-point projection performed by the
external library call geopy.distance.VincentyDistance.destination at
utils.py lines 91-92, a call into the geopy package whose code is not part of
this repository.  Section 4.3 of the spec describes it as displacing the
start point by the given distance along the given bearing using an
ellipsoidal geodesic destination-point projection, WGS84-style; this is the
standard direct Vincenty computation on the WGS84 ellipsoid (lengths in
kilometers, angles in degrees), with the sigma fixed-point iteration run a
fixed number of times. -/
noncomputable def vincentyDirect (p : GeoPt) (bearing skm : ℝ) : GeoPt :=
  let phi1 := radians p.lat
  let lam1 := radians p.lon
  let alpha1 := radians bearing
  let b := wgs84a * (1 - wgs84f)
  let tanU1 := (1 - wgs84f) * Real.tan phi1
  let u1 := Real.arctan tanU1
  let sinU1 := Real.sin u1
  let cosU1 := Real.cos u1
  let sigma1 := atan2 tanU1 (Real.cos alpha1)
  let sinAlpha := cosU1 * Real.sin alpha1
  let cos2Alpha := 1 - sinAlpha ^ 2
  let usq := cos2Alpha * (wgs84a ^ 2 - b ^ 2) / b ^ 2
  let bigA := 1 + usq / 16384 * (4096 + usq * (-768 + usq * (320 - 175 * usq)))
  let bigB := usq / 1024 * (256 + usq * (-128 + usq * (74 - 47 * usq)))
  let sigma := sigmaIter bigB sigma1 (skm / (b * bigA)) 20
  let sinSigma := Real.sin sigma
  let cosSigma := Real.cos sigma
  let cos2SigmaM := Real.cos (2 * sigma1 + sigma)
  let phi2 := atan2 (sinU1 * cosSigma + cosU1 * sinSigma * Real.cos alpha1)
    ((1 - wgs84f) *
      Real.sqrt (sinAlpha ^ 2 + (sinU1 * sinSigma - cosU1 * cosSigma * Real.cos alpha1) ^ 2))
  let lam := atan2 (sinSigma * Real.sin alpha1) (cosU1 * cosSigma - sinU1 * sinSigma * Real.cos alpha1)
  let bigC := wgs84f / 16 * cos2Alpha * (4 + wgs84f * (4 - 3 * cos2Alpha))
  let bigL := lam - (1 - bigC) * wgs84f * sinAlpha *
    (sigma + bigC * sinSigma * (cos2SigmaM + bigC * cosSigma * (-1 + 2 * cos2SigmaM ^ 2)))
  ⟨degreesR phi2, degreesR (lam1 + bigL)⟩

/-- Embeds utils.get_coordinates (utils.py lines 72-94): the destination point
reached from the start point along the bearing towards the end point, after
converting the distance from meters to kilometers. -/
noncomputable def get_coordinates (s e : GeoPt) (distance_meters : ℝ) : GeoPt :=
  vincentyDirect s (get_bearing s e) (distance_meters / 1000)

/-- The geographic position computed at utils.py lines 128-130 for the
synthesized point of get_point_in_the_middle: the destination reached from the
start point, towards the end point, at the distance_proportion distance. -/
noncomputable def middlePointOf (s e : CumPoint) (time_diff : ℚ) (point_idx : ℕ) : GeoPt :=
  get_coordinates ⟨(s.latitude : ℝ), (s.longitude : ℝ)⟩ ⟨(e.latitude : ℝ), (e.longitude : ℝ)⟩
    ((distance_proportionOf e time_diff point_idx : ℚ) : ℝ)

/-- Point builder for concrete examples: route name, date, TimeDifference. -/
def mkPt (r : String) (d : ℤ) (td : ℚ) : Point :=
  { codeRoute := r, latitude := 0, longitude := 0, altitude := 0, date := d,
    speed := 0, timeDifference := td, distance := 0, fileName := none }

/-- Single-route input whose second window holds two raw points. -/
def c1T : List Point := [mkPt "A" 0 0, mkPt "A" 1 3, mkPt "A" 2 4]

/-- Route that triggers the interpolation branch on its first window. -/
def c2A : List Point := [mkPt "A" 0 0, mkPt "A" 1 10]

/-- Dense route whose two windows both hold a raw point. -/
def c2B : List Point := [mkPt "B" 10 0, mkPt "B" 11 1, mkPt "B" 12 1]

/-- Two-route input: the sparse route A precedes the dense route B. -/
def c2T1 : List Point := c2A ++ c2B

/-- The same input with the points of route A removed. -/
def c2T2 : List Point := c2B

/-- A second dense route used to witness route noninterference. -/
def c2C : List Point := [mkPt "C" 20 0, mkPt "C" 21 1, mkPt "C" 22 1]

/-- The output of normalizing the single-route input c1T with one window. -/
def c1Out : List NormPoint :=
  [{ toPoint := mkPt "A" 0 0, cumTimeDiff := some 0, videoFrame := 0 },
   { toPoint := mkPt "A" 1 3, cumTimeDiff := some 3, videoFrame := 1 },
   { toPoint := mkPt "A" 2 4, cumTimeDiff := some 7, videoFrame := 1 }]

/-- The output of normalizing c2B alone with two windows. -/
def c2Out1 : List NormPoint :=
  [{ toPoint := mkPt "B" 10 0, cumTimeDiff := some 0, videoFrame := 0 },
   { toPoint := mkPt "B" 11 1, cumTimeDiff := some 1, videoFrame := 1 },
   { toPoint := mkPt "B" 12 1, cumTimeDiff := some 2, videoFrame := 2 }]

/-- The output of normalizing a single one-point route with one window: only
the frame zero anchor appears, the lone window is silently skipped. -/
def c9OutA : List NormPoint :=
  [{ toPoint := mkPt "A" 0 0, cumTimeDiff := some 0, videoFrame := 0 }]

/-- The output of normalizing c2B together with c2C with two windows. -/
def c2Out2 : List NormPoint :=
  c2Out1 ++
  [{ toPoint := mkPt "C" 20 0, cumTimeDiff := some 0, videoFrame := 0 },
   { toPoint := mkPt "C" 21 1, cumTimeDiff := some 1, videoFrame := 1 },
   { toPoint := mkPt "C" 22 1, cumTimeDiff := some 2, videoFrame := 2 }]

/-- Rows produced by a normalization call: the emitted table on success, no
rows at all when the call raised. -/
def outRows : Except PyErr (List NormPoint) → List NormPoint
  | .ok l => l
  | .error _ => []

/-- Interleaved three-row input: route A, route B, route A again. -/
def c3T : List Point := [mkPt "A" 0 0, mkPt "B" 1 0, mkPt "A" 2 5]

/-- The start row of the interpolation sanity scenario of spec section 8. -/
def c4Start : CumPoint :=
  { toPoint := { codeRoute := "R", latitude := 0, longitude := 0, altitude := 0, date := 0,
                 speed := 0, timeDifference := 0, distance := 0, fileName := none },
    cumTimeDiff := 0 }

/-- The end row of the interpolation sanity scenario of spec section 8. -/
def c4End : CumPoint :=
  { toPoint := { codeRoute := "R", latitude := 0, longitude := 1, altitude := 0, date := 100,
                 speed := 0, timeDifference := 100, distance := 111320, fileName := none },
    cumTimeDiff := 100 }

/-- Rows held by a PyVal when it is a DFTrack, none otherwise. -/
def dftRows : PyVal → List Point
  | .dft rows => rows
  | .other _ => []

/-- Per-route prefix sums of a list of rationals, used to state what the
CumTimeDiff column must hold. -/
def prefixSums (acc : ℚ) : List ℚ → List ℚ
  | [] => []
  | x :: xs => (acc + x) :: prefixSums (acc + x) xs

/-- A decomposition of an input table into contiguous route blocks: every block
is nonempty, all points of a block carry the route name of the block, and no
two blocks share a route name.  An input admitting such a decomposition is one
whose routes are not interleaved. -/
def RouteBlocks (blocks : List (String × List Point)) : Prop :=
  (∀ b ∈ blocks, b.2 ≠ [] ∧ ∀ p ∈ b.2, p.codeRoute = b.1) ∧ (blocks.map Prod.fst).Nodup

/-- Rows that a completed run of the route loop emits for one route: the frame
zero anchors followed, window by window, by the raw points of each window
(interpolated rows never occur in a completed run, because the interpolation
always raises). -/
def blockOf (df_cum : List CumPoint) (time framerate n_fps : ℕ) (name : String) :
    List NormPoint :=
  frameZeroOf df_cum name ++
    (List.range' 1 n_fps).flatMap
      (fun j => ((sliceOf df_cum name).filter
          (fun p => inWindow (tdOf df_cum time framerate name) j p)).map (setVF j))

/-- C1, counterexample.  On a single-route input whose second and third points
both fall in the window of frame one (durations 0, 3, 4 with one window of
width 7), time_video_normalize emits two rows for the pair of route A and
video frame one, so a route and frame pair can hold more than one point. -/
theorem c1_counterexample :
    ((outRows (time_video_normalize c1T 1 1)).filter
        (fun q => decide (q.codeRoute = "A" ∧ q.videoFrame = 1))).length = 2 := by
  norm_num [c1T, mkPt, time_video_normalize, dfCum, calculate_cum_time_diff, sortByDate,
    insertByDate, uniqueList, cumsum, routesLoop, windowLoop, windowStep, sliceOf, tdOf,
    frameZeroOf, setVF, inWindow, get_point_in_the_middle, outRows, List.range',
    List.filter]

/-- C2, counterexample.  The inputs c2T1 and c2T2 hold exactly the same points
of route B, yet with time one and framerate two the first run emits no rows at
all for route B (route A reaches the interpolation call, which raises) while
the second run emits three rows for route B: the rows produced for a route do
depend on the points of other routes. -/
theorem c2_counterexample :
    c2T1.filter (fun p => p.codeRoute = "B") = c2T2.filter (fun p => p.codeRoute = "B") ∧
    (outRows (time_video_normalize c2T1 1 2)).filter (fun q => q.codeRoute = "B") ≠
      (outRows (time_video_normalize c2T2 1 2)).filter (fun q => q.codeRoute = "B") := by
  have hAB : ("A" : String) ≠ "B" := by decide
  have hBA : ("B" : String) ≠ "A" := by decide
  constructor
  · norm_num [c2T1, c2T2, c2A, c2B, mkPt, List.filter_cons, hAB, hBA]
  · intro h
    norm_num [c2T1, c2T2, c2A, c2B, mkPt, time_video_normalize, dfCum,
      calculate_cum_time_diff, sortByDate, insertByDate, uniqueList, cumsum, routesLoop,
      windowLoop, windowStep, sliceOf, tdOf, frameZeroOf, setVF, inWindow,
      get_point_in_the_middle, outRows, List.range', List.filter_cons, Point.mk.injEq,
      NormPoint.mk.injEq, Except.map, hAB, hBA] at h
    exact List.cons_ne_nil _ _ h

/-- C3, counterexample.  On an input whose rows of routes A and B are
interleaved, calculate_cum_time_diff does not return the rows in input order:
the rows come back regrouped by route. -/
theorem c3_counterexample :
    (calculate_cum_time_diff c3T).map (fun q => q.toPoint) ≠ c3T := by
  norm_num [c3T, mkPt, calculate_cum_time_diff, uniqueList, cumsum, Point.mk.injEq]

/-- C4, counterexample.  At the scenario of the claim the speed value computed
by get_point_in_the_middle equals distance_proportion divided by
time_diff_proportion, which is 55660 / 50 = 1113.2, not 1113.2 / 50 as the
claim states. -/
theorem c4_counterexample :
    speedOf c4End 50 1 = 1113.2 ∧ speedOf c4End 50 1 ≠ 1113.2 / 50 := by
  constructor <;>
    norm_num [speedOf, distance_proportionOf, time_diff_proportionOf, time_proportionOf,
      c4End]

/-- C5, confirmed.  With time equal to zero, time_video_normalize returns all
input rows, in order, with every field unchanged and a VideoFrame field equal
to zero added; no sorting, windowing or cumulative-time computation happens
and no exception can be raised. -/
theorem c5_zero_duration (rows : List Point) (framerate : ℕ) :
    time_video_normalize rows 0 framerate =
      .ok (rows.map (fun p => { toPoint := p, cumTimeDiff := none, videoFrame := 0 })) := by
  simp [time_video_normalize]

/-- C8, confirmed.  get_point_in_the_middle raises a ZeroDivisionError exactly
when the TimeDifference of the end row is zero (the division of line 112) or
the product of the window width and the point index is zero (the division by
time_diff_proportion of line 116, whose value reduces to that product); in
particular an end row with TimeDifference zero always produces the division
by zero, unguarded. -/
theorem c8_division_by_zero (s e : CumPoint) (time_diff : ℚ) (point_idx : ℕ) :
    get_point_in_the_middle s e time_diff point_idx = .error .zeroDiv ↔
      e.timeDifference = 0 ∨ time_diff * (point_idx : ℚ) = 0 := by
  by_cases h : e.timeDifference = 0
  · simp [get_point_in_the_middle, h]
  · have hprop : e.timeDifference * (time_diff * (point_idx : ℚ) / e.timeDifference) =
        time_diff * (point_idx : ℚ) := by
      rw [mul_comm, div_mul_cancel₀ _ h]
    by_cases h2 : time_diff * (point_idx : ℚ) = 0 <;>
      simp [get_point_in_the_middle, h, hprop, h2]

/-- C8, witness. -/
theorem c8_division_by_zero_witness :
    get_point_in_the_middle c4Start
      { c4End with toPoint := { c4End.toPoint with timeDifference := 0 } } 50 1 =
      .error .zeroDiv :=
  (c8_division_by_zero c4Start _ 50 1).mpr (Or.inl rfl)

theorem collectRows_all (vs : List PyVal)
    (h : ∀ v ∈ vs, ∃ rows, v = PyVal.dft rows) :
    collectRows vs = .ok (vs.map dftRows) := by
  induction vs with
  | nil => rfl
  | cons v rest ih =>
    obtain ⟨rows, rfl⟩ := h v (List.mem_cons_self v rest)
    rw [collectRows, ih (fun w hw => h w (List.mem_cons_of_mem _ hw))]
    rfl

theorem collectRows_bad (vs : List PyVal)
    (h : ∃ v ∈ vs, ∀ rows, v ≠ PyVal.dft rows) :
    ∃ t, collectRows vs = .error t := by
  induction vs with
  | nil => simp at h
  | cons v rest ih =>
    match v with
    | .other t => exact ⟨t, rfl⟩
    | .dft rows =>
      obtain ⟨w, hw, hbad⟩ := h
      rcases List.mem_cons.mp hw with rfl | hw2
      · exact absurd rfl (hbad rows)
      · obtain ⟨t, ht⟩ := ih ⟨w, hw2, hbad⟩
        exact ⟨t, by rw [collectRows, ht]; rfl⟩

/-- C10, confirmed.  concat_dfts returns a TrackException whenever any element
of its (possibly wrapped) argument list is not a DFTrack, and otherwise
returns the rows of the receiver followed by all rows of the arguments in
order; the receiver list is an immutable input of the model, matching the
source, which only reads self.df and builds a fresh frame. -/
theorem c10_concat_dfts (self : List Point) (arg : PyVal ⊕ List PyVal) :
    ((∀ v ∈ argElems arg, ∃ rows, v = PyVal.dft rows) →
      concat_dfts self arg = .ok (self ++ (argElems arg).flatMap dftRows)) ∧
    ((∃ v ∈ argElems arg, ∀ rows, v ≠ PyVal.dft rows) →
      ∃ t, concat_dfts self arg = .error t) := by
  constructor
  · intro h
    rw [concat_dfts, collectRows_all _ h]
    simp [Except.map, List.flatMap_def]
  · intro h
    obtain ⟨t, ht⟩ := collectRows_bad _ h
    exact ⟨t, by rw [concat_dfts, ht]; rfl⟩

/-- C10, witness. -/
theorem c10_concat_dfts_witness :
    concat_dfts [mkPt "A" 0 0] (.inr [.dft [mkPt "B" 1 0]]) =
      .ok [mkPt "A" 0 0, mkPt "B" 1 0] ∧
    ∃ t, concat_dfts [mkPt "A" 0 0] (.inr [.dft [], .other "int"]) = .error t := by
  constructor
  · have h := (c10_concat_dfts [mkPt "A" 0 0] (.inr [.dft [mkPt "B" 1 0]])).1
      (by intro v hv; simp [argElems] at hv; exact ⟨[mkPt "B" 1 0], hv⟩)
    simpa [argElems, dftRows] using h
  · exact (c10_concat_dfts [mkPt "A" 0 0] (.inr [.dft [], .other "int"])).2
      ⟨.other "int", by simp [argElems], fun rows h => by cases h⟩

theorem cumsum_map_toPoint (acc : ℚ) (l : List Point) :
    (cumsum acc l).map (fun q => q.toPoint) = l := by
  induction l generalizing acc with
  | nil => rfl
  | cons p ps ih => simp [cumsum, ih]

theorem cumsum_map_cumTimeDiff (acc : ℚ) (l : List Point) :
    (cumsum acc l).map (fun q => q.cumTimeDiff) =
      prefixSums acc (l.map (fun p => p.timeDifference)) := by
  induction l generalizing acc with
  | nil => rfl
  | cons p ps ih => simp [cumsum, prefixSums, ih]

theorem mem_cumsum_toPoint (acc : ℚ) (l : List Point) (q : CumPoint)
    (hq : q ∈ cumsum acc l) : q.toPoint ∈ l := by
  induction l generalizing acc with
  | nil => cases hq
  | cons p ps ih =>
    rcases List.mem_cons.mp hq with rfl | h
    · exact List.mem_cons_self _ _
    · exact List.mem_cons_of_mem _ (ih _ h)

theorem filter_cumsum_of_route (acc : ℚ) (l : List Point) (n r : String)
    (h : ∀ p ∈ l, p.codeRoute = n) :
    (cumsum acc l).filter (fun q => q.codeRoute = r) =
      if n = r then cumsum acc l else [] := by
  split
  · case isTrue hnr =>
    refine List.filter_eq_self.mpr (fun q hq => ?_)
    have := h q.toPoint (mem_cumsum_toPoint acc l q hq)
    simp [this, hnr]
  · case isFalse hnr =>
    refine List.filter_eq_nil_iff.mpr (fun q hq => ?_)
    have := h q.toPoint (mem_cumsum_toPoint acc l q hq)
    simp [this, hnr]

theorem mem_uniqueList : ∀ (l : List String) (a : String), a ∈ uniqueList l ↔ a ∈ l
  | [], a => by simp [uniqueList]
  | b :: l, a => by
    rw [uniqueList]
    by_cases hab : a = b
    · simp [hab]
    · simp only [List.mem_cons, hab, false_or]
      rw [mem_uniqueList (l.filter (fun x => x ≠ b)) a]
      simp [List.mem_filter, hab]
termination_by l => l.length
decreasing_by
  simp only [List.length_cons]
  exact Nat.lt_succ_of_le (List.length_filter_le _ _)

theorem nodup_uniqueList : ∀ l : List String, (uniqueList l).Nodup
  | [] => by simp [uniqueList]
  | b :: l => by
    rw [uniqueList]
    refine List.nodup_cons.mpr ⟨?_, nodup_uniqueList _⟩
    rw [mem_uniqueList]
    simp
termination_by l => l.length
decreasing_by
  simp only [List.length_cons]
  exact Nat.lt_succ_of_le (List.length_filter_le _ _)

theorem filter_flatMap_blocks (rows : List Point) (r : String) :
    ∀ names : List String, names.Nodup →
      ((names.flatMap (fun n => cumsum 0 (rows.filter (fun p => p.codeRoute = n)))).filter
          (fun q => q.codeRoute = r)) =
        if r ∈ names then cumsum 0 (rows.filter (fun p => p.codeRoute = r)) else []
  | [], _ => by simp
  | n :: ns, hnd => by
    rw [List.flatMap_cons, List.filter_append]
    have hblock := filter_cumsum_of_route 0 (rows.filter (fun p => p.codeRoute = n)) n r
      (fun p hp => by simpa using (List.mem_filter.mp hp).2)
    rw [hblock, filter_flatMap_blocks rows r ns (List.nodup_cons.mp hnd).2]
    by_cases hnr : n = r
    · subst hnr
      have : n ∉ ns := (List.nodup_cons.mp hnd).1
      simp [this]
    · have hmem : (r ∈ n :: ns) ↔ r ∈ ns :=
        List.mem_cons.trans (or_iff_right (fun h => hnr h.symm))
      by_cases hr : r ∈ ns <;> simp [hnr, hr, hmem]

theorem filter_calculate_cum (rows : List Point) (r : String) :
    (calculate_cum_time_diff rows).filter (fun q => q.codeRoute = r) =
      cumsum 0 (rows.filter (fun p => p.codeRoute = r)) := by
  rw [calculate_cum_time_diff,
    filter_flatMap_blocks rows r _ (nodup_uniqueList (rows.map (fun p => p.codeRoute)))]
  split
  · rfl
  · case isFalse hr =>
    have : rows.filter (fun p => p.codeRoute = r) = [] := by
      refine List.filter_eq_nil_iff.mpr (fun p hp => ?_)
      intro hcontra
      apply hr
      rw [mem_uniqueList]
      simp only [decide_eq_true_eq] at hcontra
      exact List.mem_map.mpr ⟨p, hp, hcontra⟩
    rw [this]
    rfl

theorem prefixSums_chain (acc : ℚ) (xs : List ℚ) (h : ∀ x ∈ xs, 0 ≤ x) :
    List.Chain' (· ≤ ·) (prefixSums acc xs) := by
  induction xs generalizing acc with
  | nil => simp [prefixSums]
  | cons x xs ih =>
    cases xs with
    | nil => simp [prefixSums]
    | cons y ys =>
      rw [prefixSums, prefixSums]
      refine List.chain'_cons.mpr ⟨?_, ?_⟩
      · have := h y (List.mem_cons_of_mem _ (List.mem_cons_self _ _))
        linarith
      · have h2 := ih (acc + x) (fun z hz => h z (List.mem_cons_of_mem _ hz))
        rw [prefixSums] at h2
        exact h2

theorem cumsum_getLast (acc : ℚ) : ∀ (l : List Point) (p : CumPoint),
    (cumsum acc l).getLast? = some p →
    p.cumTimeDiff = acc + (l.map (fun q => q.timeDifference)).sum := by
  intro l
  induction l generalizing acc with
  | nil => intro p h; cases h
  | cons x xs ih =>
    intro p h
    cases xs with
    | nil =>
      rw [cumsum, cumsum, List.getLast?_singleton] at h
      cases h
      simp
    | cons y ys =>
      rw [cumsum, cumsum, List.getLast?_cons_cons] at h
      have := ih (acc + x.timeDifference) p (by rw [cumsum]; exact h)
      rw [this]
      simp only [List.map_cons, List.sum_cons]
      ring

theorem count_filter_route (rows : List Point) (x : Point) (n : String) :
    List.count x (rows.filter (fun p => p.codeRoute = n)) =
      if x.codeRoute = n then List.count x rows else 0 := by
  split
  · case isTrue h => exact List.count_filter (by simp [h])
  · case isFalse h =>
    refine List.count_eq_zero.mpr (fun hx => ?_)
    have := (List.mem_filter.mp hx).2
    simp only [decide_eq_true_eq] at this
    exact h this

theorem sum_if_mem (c : ℕ) (r : String) :
    ∀ names : List String, names.Nodup →
      (names.map (fun n => if r = n then c else 0)).sum = if r ∈ names then c else 0
  | [], _ => by simp
  | n :: ns, h => by
    rw [List.map_cons, List.sum_cons, sum_if_mem c r ns (List.nodup_cons.mp h).2]
    by_cases hrn : r = n
    · subst hrn
      have hout : r ∉ ns := (List.nodup_cons.mp h).1
      simp [hout]
    · have : (r ∈ n :: ns) ↔ r ∈ ns := List.mem_cons.trans (or_iff_right hrn)
      by_cases hr : r ∈ ns <;> simp [hrn, hr, this]

theorem calc_perm (rows : List Point) :
    ((calculate_cum_time_diff rows).map (fun q => q.toPoint)).Perm rows := by
  rw [List.perm_iff_count]
  intro x
  rw [calculate_cum_time_diff, List.map_flatMap, List.count_flatMap]
  have hcongr : List.map
      (List.count x ∘ fun n =>
        List.map (fun q => q.toPoint) (cumsum 0 (rows.filter (fun p => p.codeRoute = n))))
      (uniqueList (rows.map (fun p => p.codeRoute))) =
      List.map (fun n => if x.codeRoute = n then List.count x rows else 0)
        (uniqueList (rows.map (fun p => p.codeRoute))) := by
    refine List.map_congr_left (fun n _ => ?_)
    simp only [Function.comp_apply]
    rw [cumsum_map_toPoint, count_filter_route]
  rw [hcongr, sum_if_mem _ _ _ (nodup_uniqueList _)]
  split
  · rfl
  · case isFalse h =>
    symm
    refine List.count_eq_zero.mpr (fun hx => h ?_)
    rw [mem_uniqueList]
    exact List.mem_map.mpr ⟨x, hx, rfl⟩

theorem uniqueList_block_append (t l2 : List String) (r : String)
    (ht : ∀ x ∈ t, x = r) :
    uniqueList ((r :: t) ++ l2) = r :: uniqueList (l2.filter (fun x => x ≠ r)) := by
  rw [List.cons_append, uniqueList]
  congr 1
  rw [List.filter_append]
  have hnil : t.filter (fun x => x ≠ r) = [] :=
    List.filter_eq_nil_iff.mpr (fun x hx => by simp [ht x hx])
  rw [hnil, List.nil_append]

theorem calc_block_append (r : String) (b rows2 : List Point)
    (hb : b ≠ []) (hroute : ∀ p ∈ b, p.codeRoute = r)
    (hne : ∀ p ∈ rows2, p.codeRoute ≠ r) :
    calculate_cum_time_diff (b ++ rows2) =
      cumsum 0 b ++ calculate_cum_time_diff rows2 := by
  obtain ⟨p0, t, rfl⟩ : ∃ p0 t, b = p0 :: t := by
    cases b with
    | nil => exact absurd rfl hb
    | cons p0 t => exact ⟨p0, t, rfl⟩
  have hp0 : p0.codeRoute = r := hroute p0 (List.mem_cons_self _ _)
  rw [calculate_cum_time_diff]
  have hmap : (p0 :: t ++ rows2).map (fun p => p.codeRoute) =
      (r :: t.map (fun p => p.codeRoute)) ++ rows2.map (fun p => p.codeRoute) := by
    simp [hp0]
  rw [hmap, uniqueList_block_append _ _ r
    (fun x hx => by
      obtain ⟨q, hq, rfl⟩ := List.mem_map.mp hx
      exact hroute q (List.mem_cons_of_mem _ hq))]
  have hfilt : (rows2.map (fun p => p.codeRoute)).filter (fun x => x ≠ r) =
      rows2.map (fun p => p.codeRoute) := by
    refine List.filter_eq_self.mpr (fun a ha => ?_)
    obtain ⟨q, hq, rfl⟩ := List.mem_map.mp ha
    simp [hne q hq]
  rw [hfilt, List.flatMap_cons]
  congr 1
  · -- the head block: the filter keeps exactly b
    have : (p0 :: t ++ rows2).filter (fun p => p.codeRoute = r) = p0 :: t := by
      rw [List.cons_append, List.filter_cons, List.filter_append]
      have h1 : t.filter (fun p => p.codeRoute = r) = t :=
        List.filter_eq_self.mpr (fun q hq => by
          simp [hroute q (List.mem_cons_of_mem _ hq)])
      have h2 : rows2.filter (fun p => p.codeRoute = r) = [] :=
        List.filter_eq_nil_iff.mpr (fun q hq => by simp [hne q hq])
      simp [hp0, h1, h2]
    rw [this]
  · -- the tail blocks: route names of rows2 never match rows of b
    rw [calculate_cum_time_diff, List.flatMap_def, List.flatMap_def]
    congr 1
    refine List.map_congr_left (fun n hn => ?_)
    have hnr : n ≠ r := by
      rw [mem_uniqueList] at hn
      obtain ⟨q, hq, rfl⟩ := List.mem_map.mp hn
      exact hne q hq
    congr 1
    rw [List.cons_append, List.filter_cons, List.filter_append]
    have h1 : t.filter (fun p => p.codeRoute = n) = [] :=
      List.filter_eq_nil_iff.mpr (fun q hq => by
        have := hroute q (List.mem_cons_of_mem _ hq)
        simp only [decide_eq_true_eq, this]
        exact fun hh => hnr hh.symm)
    have h0 : ¬(decide (p0.codeRoute = n) = true) := by
      simp only [decide_eq_true_eq, hp0]
      exact fun hh => hnr hh.symm
    simp [h0, h1]

theorem calc_grouped : ∀ blocks : List (String × List Point), RouteBlocks blocks →
    (calculate_cum_time_diff (blocks.flatMap Prod.snd)).map (fun q => q.toPoint) =
      blocks.flatMap Prod.snd
  | [], _ => by simp [calculate_cum_time_diff, uniqueList]
  | (r, b) :: rest, h => by
    obtain ⟨hall, hnd⟩ := h
    have hb := hall (r, b) (List.mem_cons_self _ _)
    rw [List.map_cons] at hnd
    have hrest : RouteBlocks rest :=
      ⟨fun bb hbb => hall bb (List.mem_cons_of_mem _ hbb), (List.nodup_cons.mp hnd).2⟩
    have hne : ∀ p ∈ rest.flatMap Prod.snd, p.codeRoute ≠ r := by
      intro p hp
      obtain ⟨bb, hbb, hpbb⟩ := List.mem_flatMap.mp hp
      rw [(hall bb (List.mem_cons_of_mem _ hbb)).2 p hpbb]
      have hfst : bb.1 ∈ rest.map Prod.fst := List.mem_map.mpr ⟨bb, hbb, rfl⟩
      exact fun hh => (List.nodup_cons.mp hnd).1 (hh ▸ hfst)
    rw [List.flatMap_cons, calc_block_append r b (rest.flatMap Prod.snd) hb.1 hb.2 hne,
      List.map_append, cumsum_map_toPoint, calc_grouped rest hrest]

/-- C3, amended claim.  calculate_cum_time_diff returns the same rows with a
CumTimeDiff field added holding, within each route, the running sum of the
TimeDifference values of that route in original relative order; an empty
input yields an empty output and there are no error conditions.  However the
rows come back regrouped by route in order of first appearance, so the output
keeps the exact input row order only when no two routes interleave (for
example when the input decomposes into contiguous route blocks). -/
theorem c3_amended (rows : List Point) (r : String)
    (blocks : List (String × List Point)) :
    calculate_cum_time_diff ([] : List Point) = [] ∧
    ((calculate_cum_time_diff rows).map (fun q => q.toPoint)).Perm rows ∧
    ((calculate_cum_time_diff rows).filter (fun q => q.codeRoute = r)).map
        (fun q => q.toPoint) = rows.filter (fun p => p.codeRoute = r) ∧
    ((calculate_cum_time_diff rows).filter (fun q => q.codeRoute = r)).map
        (fun q => q.cumTimeDiff) =
      prefixSums 0 ((rows.filter (fun p => p.codeRoute = r)).map
        (fun p => p.timeDifference)) ∧
    (RouteBlocks blocks →
      (calculate_cum_time_diff (blocks.flatMap Prod.snd)).map (fun q => q.toPoint) =
        blocks.flatMap Prod.snd) := by
  refine ⟨by simp [calculate_cum_time_diff, uniqueList], calc_perm rows, ?_, ?_,
    calc_grouped blocks⟩
  · rw [filter_calculate_cum, cumsum_map_toPoint]
  · rw [filter_calculate_cum, cumsum_map_cumTimeDiff]

/-- C3, witness. -/
theorem c3_amended_witness :
    (calculate_cum_time_diff
        (([("A", [mkPt "A" 0 0]), ("B", [mkPt "B" 1 0])] :
          List (String × List Point)).flatMap Prod.snd)).map (fun q => q.toPoint) =
      ([("A", [mkPt "A" 0 0]), ("B", [mkPt "B" 1 0])] :
        List (String × List Point)).flatMap Prod.snd :=
  (c3_amended c3T "A" [("A", [mkPt "A" 0 0]), ("B", [mkPt "B" 1 0])]).2.2.2.2
    (by unfold RouteBlocks; decide)

/-- C7, confirmed.  On any input whose TimeDifference values are nonnegative
and whose first row of every route has TimeDifference zero, the CumTimeDiff
values that calculate_cum_time_diff assigns within any single route are
non-decreasing in row order, are zero at the first row of the route, and end
at the sum of the TimeDifference values of that route. -/
theorem c7_cum_monotonicity (rows : List Point) (r : String)
    (hnn : ∀ p ∈ rows, 0 ≤ p.timeDifference)
    (hfirst : ∀ r2 p l, rows.filter (fun q => q.codeRoute = r2) = p :: l →
      p.timeDifference = 0) :
    List.Chain' (· ≤ ·)
      (((calculate_cum_time_diff rows).filter (fun q => q.codeRoute = r)).map
        (fun q => q.cumTimeDiff)) ∧
    (∀ p l, (calculate_cum_time_diff rows).filter (fun q => q.codeRoute = r) = p :: l →
      p.cumTimeDiff = 0) ∧
    (∀ p, ((calculate_cum_time_diff rows).filter (fun q => q.codeRoute = r)).getLast? =
        some p →
      p.cumTimeDiff = ((rows.filter (fun q => q.codeRoute = r)).map
        (fun q => q.timeDifference)).sum) := by
  have hs := filter_calculate_cum rows r
  refine ⟨?_, ?_, ?_⟩
  · rw [hs, cumsum_map_cumTimeDiff]
    refine prefixSums_chain 0 _ (fun x hx => ?_)
    obtain ⟨p, hp, rfl⟩ := List.mem_map.mp hx
    exact hnn p (List.mem_of_mem_filter hp)
  · intro p l h
    rw [hs] at h
    cases hfl : rows.filter (fun q => q.codeRoute = r) with
    | nil => rw [hfl] at h; cases h
    | cons x xs =>
      rw [hfl, cumsum] at h
      have hx := hfirst r x xs hfl
      have hp := (List.cons.injEq _ _ _ _).mp h
      rw [← hp.1]
      simp [hx]
  · intro p h
    rw [hs] at h
    rw [cumsum_getLast 0 _ p h, zero_add]

/-- C7, witness. -/
theorem c7_cum_monotonicity_witness :
    List.Chain' (· ≤ ·)
      (((calculate_cum_time_diff c1T).filter (fun q => q.codeRoute = "A")).map
        (fun q => q.cumTimeDiff)) ∧
    (∀ p l, (calculate_cum_time_diff c1T).filter (fun q => q.codeRoute = "A") = p :: l →
      p.cumTimeDiff = 0) ∧
    (∀ p, ((calculate_cum_time_diff c1T).filter (fun q => q.codeRoute = "A")).getLast? =
        some p →
      p.cumTimeDiff = ((c1T.filter (fun q => q.codeRoute = "A")).map
        (fun q => q.timeDifference)).sum) := by
  refine c7_cum_monotonicity c1T "A" (by decide) ?_
  intro r2 p l h
  by_cases hA : ("A" : String) = r2
  · subst hA
    have hfl : c1T.filter (fun q => q.codeRoute = "A") = c1T :=
      List.filter_eq_self.mpr (by decide)
    rw [hfl] at h
    simp only [c1T] at h
    rw [← ((List.cons.injEq _ _ _ _).mp h).1]
    rfl
  · have hfl : c1T.filter (fun q => q.codeRoute = r2) = [] :=
      List.filter_eq_nil_iff.mpr (fun a ha => by
        simp only [c1T, List.mem_cons, List.not_mem_nil, or_false] at ha
        rcases ha with rfl | rfl | rfl <;> simp [mkPt, hA])
    rw [hfl] at h
    exact absurd h (by simp)

theorem mem_insertByDate (p x : Point) :
    ∀ l : List Point, x ∈ insertByDate p l ↔ x = p ∨ x ∈ l
  | [] => by simp [insertByDate]
  | q :: l => by
    rw [insertByDate]
    split
    · simp [List.mem_cons]
    · simp only [List.mem_cons, mem_insertByDate p x l]
      tauto

theorem insertByDate_of_le (p : Point) (m : List Point)
    (h : ∀ x ∈ m, p.date ≤ x.date) : insertByDate p m = p :: m := by
  cases m with
  | nil => rfl
  | cons q l => rw [insertByDate, if_pos (h q (List.mem_cons_self _ _))]

theorem pairwise_insertByDate (p : Point) :
    ∀ l : List Point, l.Pairwise (fun a b => a.date ≤ b.date) →
      (insertByDate p l).Pairwise (fun a b => a.date ≤ b.date)
  | [], _ => by simp [insertByDate]
  | q :: l, h => by
    rw [insertByDate]
    obtain ⟨hq, hl⟩ := List.pairwise_cons.mp h
    split
    · case isTrue hpq =>
      refine List.pairwise_cons.mpr ⟨?_, h⟩
      intro x hx
      rcases List.mem_cons.mp hx with rfl | hx2
      · exact hpq
      · exact le_trans hpq (hq x hx2)
    · case isFalse hpq =>
      refine List.pairwise_cons.mpr ⟨?_, pairwise_insertByDate p l hl⟩
      intro x hx
      rcases (mem_insertByDate p x l).mp hx with rfl | hx2
      · exact le_of_lt (lt_of_not_le hpq)
      · exact hq x hx2

theorem sortByDate_sorted :
    ∀ l : List Point, (sortByDate l).Pairwise (fun a b => a.date ≤ b.date)
  | [] => by simp [sortByDate]
  | p :: l => by
    rw [sortByDate]
    exact pairwise_insertByDate p (sortByDate l) (sortByDate_sorted l)

theorem length_sortByDate : ∀ l : List Point, (sortByDate l).length = l.length
  | [] => rfl
  | p :: l => by
    rw [sortByDate, List.length_cons, ← length_sortByDate l]
    generalize sortByDate l = m
    induction m with
    | nil => rfl
    | cons q t ih =>
      rw [insertByDate]
      split
      · rfl
      · rw [List.length_cons, List.length_cons, ih]

theorem filter_insertByDate (f : Point → Bool) (p : Point) :
    ∀ l : List Point, l.Pairwise (fun a b => a.date ≤ b.date) →
      (insertByDate p l).filter f =
        if f p then insertByDate p (l.filter f) else l.filter f
  | [], _ => by
    cases hf : f p <;> simp [insertByDate, List.filter_cons, hf]
  | q :: l, hs => by
    obtain ⟨hq, hl⟩ := List.pairwise_cons.mp hs
    rw [insertByDate]
    by_cases hpq : p.date ≤ q.date
    · rw [if_pos hpq]
      cases hf : f p with
      | false => simp [List.filter_cons, hf]
      | true =>
        cases hfq : f q with
        | true =>
          simp only [List.filter_cons, hf, hfq, if_true]
          rw [insertByDate, if_pos hpq]
        | false =>
          simp only [List.filter_cons, hf, hfq, if_true, Bool.false_eq_true, if_false]
          rw [insertByDate_of_le p _
            (fun x hx => le_trans hpq (hq x (List.mem_of_mem_filter hx)))]
    · rw [if_neg hpq, List.filter_cons, filter_insertByDate f p l hl]
      cases hf : f p with
      | false => simp [List.filter_cons, hf]
      | true =>
        cases hfq : f q with
        | true =>
          simp only [List.filter_cons, hf, hfq, if_true]
          rw [insertByDate, if_neg hpq]
        | false =>
          simp only [List.filter_cons, hf, hfq, if_true, Bool.false_eq_true, if_false]

theorem filter_sortByDate (f : Point → Bool) :
    ∀ l : List Point, (sortByDate l).filter f = sortByDate (l.filter f)
  | [] => rfl
  | p :: l => by
    rw [sortByDate, filter_insertByDate f p _ (sortByDate_sorted l), List.filter_cons]
    cases hf : f p with
    | false => simp [filter_sortByDate f l]
    | true => simp [filter_sortByDate f l, sortByDate]

theorem insertByDate_perm (p : Point) : ∀ l : List Point, (insertByDate p l).Perm (p :: l)
  | [] => List.Perm.refl _
  | q :: l => by
    rw [insertByDate]
    split
    · exact List.Perm.refl _
    · exact (List.Perm.cons q (insertByDate_perm p l)).trans (List.Perm.swap p q l)

theorem sortByDate_perm : ∀ l : List Point, (sortByDate l).Perm l
  | [] => List.Perm.refl _
  | p :: l =>
    (insertByDate_perm p (sortByDate l)).trans (List.Perm.cons p (sortByDate_perm l))

theorem sorted_distinct_unique :
    ∀ (l1 l2 : List Point), l1.Perm l2 →
      l1.Pairwise (fun a b => a.date ≤ b.date) →
      l2.Pairwise (fun a b => a.date ≤ b.date) →
      l1.Pairwise (fun a b => a.date ≠ b.date) → l1 = l2
  | [], l2, hp, _, _, _ => (hp.symm.eq_nil).symm
  | a :: t1, l2, hp, hs1, hs2, hd => by
    cases l2 with
    | nil => exact absurd hp.eq_nil (by simp)
    | cons b t2 =>
      obtain ⟨ha1, hale⟩ := List.pairwise_cons.mp hs1
      obtain ⟨hb2, hble⟩ := List.pairwise_cons.mp hs2
      obtain ⟨hd1, hdt⟩ := List.pairwise_cons.mp hd
      have hab : a = b := by
        by_contra hne
        have hbmem : b ∈ a :: t1 := hp.symm.subset (List.mem_cons_self _ _)
        have hamem : a ∈ b :: t2 := hp.subset (List.mem_cons_self _ _)
        have hbt1 : b ∈ t1 := by
          rcases List.mem_cons.mp hbmem with h | h
          · exact absurd h.symm hne
          · exact h
        have hat2 : a ∈ t2 := by
          rcases List.mem_cons.mp hamem with h | h
          · exact absurd h hne
          · exact h
        exact hd1 b hbt1 (le_antisymm (ha1 b hbt1) (hb2 a hat2))
      subst hab
      rw [sorted_distinct_unique t1 t2 hp.cons_inv hale hble hdt]

theorem time_video_normalize_as_sorted (rows : List Point) (time framerate : ℕ)
    (ht : time ≠ 0) :
    time_video_normalize rows time framerate =
      normalizeSorted (sortByDate rows) time framerate ∧
    IsDateSorted rows (sortByDate rows) := by
  refine ⟨?_, sortByDate_perm rows, sortByDate_sorted rows⟩
  rw [time_video_normalize, if_neg ht, normalizeSorted, dfCum]

theorem get_point_err (s e : CumPoint) (time_diff : ℚ) (point_idx : ℕ) :
    ∃ er, get_point_in_the_middle s e time_diff point_idx = .error er := by
  by_cases h : e.timeDifference = 0
  · exact ⟨.zeroDiv, by simp [get_point_in_the_middle, h]⟩
  · by_cases h2 : e.timeDifference * (time_diff * (point_idx : ℚ) / e.timeDifference) = 0
    · exact ⟨.zeroDiv, by simp [get_point_in_the_middle, h, h2]⟩
    · exact ⟨.attrErr, by simp [get_point_in_the_middle, h, h2]⟩

theorem windowStep_ok (slice : List CumPoint) (time_diff : ℚ) (i point_idx : ℕ)
    (rows : List NormPoint) (pid2 : ℕ)
    (h : windowStep slice time_diff i point_idx = .ok (rows, pid2)) :
    rows = (slice.filter (fun p => inWindow time_diff i p)).map (setVF i) := by
  rw [windowStep] at h
  by_cases he : (slice.filter (fun p => inWindow time_diff i p)).isEmpty
  · rw [if_pos he] at h
    have hnil : slice.filter (fun p => inWindow time_diff i p) = [] :=
      List.isEmpty_iff.mp he
    rcases hst : (slice.filter
        (fun p => p.cumTimeDiff ≤ time_diff * ((i : ℚ) - 1))).getLast? with _ | s <;>
      rcases hen : (slice.filter
        (fun p => time_diff * (i : ℚ) < p.cumTimeDiff)).head? with _ | e <;>
      simp only [hst, hen] at h
    · simp only [Except.ok.injEq, Prod.mk.injEq] at h
      rw [← h.1, hnil, List.map_nil]
    · simp only [Except.ok.injEq, Prod.mk.injEq] at h
      rw [← h.1, hnil, List.map_nil]
    · simp only [Except.ok.injEq, Prod.mk.injEq] at h
      rw [← h.1, hnil, List.map_nil]
    · obtain ⟨er, her⟩ := get_point_err s e time_diff point_idx
      simp only [her, Except.map] at h
      cases h
  · rw [if_neg he] at h
    simp only [Except.ok.injEq, Prod.mk.injEq] at h
    rw [← h.1]

theorem windowLoop_ok (slice : List CumPoint) (time_diff : ℚ) :
    ∀ (js : List ℕ) (point_idx : ℕ) (rows : List NormPoint) (pid2 : ℕ),
      windowLoop slice time_diff js point_idx = .ok (rows, pid2) →
      rows = js.flatMap
        (fun j => (slice.filter (fun p => inWindow time_diff j p)).map (setVF j))
  | [], pid, rows, pid2, h => by
    simp only [windowLoop, Except.ok.injEq, Prod.mk.injEq] at h
    rw [← h.1]
    rfl
  | i :: is, pid, rows, pid2, h => by
    rcases hws : windowStep slice time_diff i pid with er | ⟨rows1, pid1⟩
    · simp only [windowLoop, hws] at h
      cases h
    · simp only [windowLoop, hws] at h
      rcases hwl : windowLoop slice time_diff is pid1 with er | ⟨rows2, pid3⟩
      · simp only [hwl, Except.map] at h
        cases h
      · simp only [hwl, Except.map, Except.ok.injEq, Prod.mk.injEq] at h
        rw [← h.1, windowStep_ok _ _ _ _ _ _ hws,
          windowLoop_ok slice time_diff is pid1 rows2 pid3 hwl, List.flatMap_cons]

theorem routesLoop_ok (df_cum : List CumPoint) (time framerate n_fps : ℕ) :
    ∀ (names : List String) (point_idx : ℕ) (out : List NormPoint),
      routesLoop df_cum time framerate n_fps names point_idx = .ok out →
      out = names.flatMap (fun name => blockOf df_cum time framerate n_fps name)
  | [], pid, out, h => by
    simp only [routesLoop, Except.ok.injEq] at h
    rw [← h]
    rfl
  | name :: rest, pid, out, h => by
    rcases hwl : windowLoop (sliceOf df_cum name) (tdOf df_cum time framerate name)
        (List.range' 1 n_fps) pid with er | ⟨rows, pid1⟩
    · simp only [routesLoop, hwl] at h
      cases h
    · simp only [routesLoop, hwl] at h
      rcases hrl : routesLoop df_cum time framerate n_fps rest pid1 with er | out2
      · simp only [hrl, Except.map] at h
        cases h
      · simp only [hrl, Except.map, Except.ok.injEq] at h
        rw [← h, routesLoop_ok df_cum time framerate n_fps rest pid1 out2 hrl,
          windowLoop_ok _ _ _ _ _ _ hwl, List.flatMap_cons, blockOf,
          List.append_assoc]

theorem mem_sliceOf_route (df_cum : List CumPoint) (name : String) (p : CumPoint)
    (hp : p ∈ sliceOf df_cum name) : p.codeRoute = name := by
  have := (List.mem_filter.mp hp).2
  simpa using this

theorem mem_blockOf (df_cum : List CumPoint) (t f n : ℕ) (name : String)
    (q : NormPoint) (hq : q ∈ blockOf df_cum t f n name) :
    (∃ p ∈ (sliceOf df_cum name).filter (fun p => p.cumTimeDiff = 0), q = setVF 0 p) ∨
    (∃ j ∈ List.range' 1 n, ∃ p ∈ (sliceOf df_cum name).filter
        (fun p => inWindow (tdOf df_cum t f name) j p), q = setVF j p) := by
  rw [blockOf] at hq
  rcases List.mem_append.mp hq with h | h
  · rw [frameZeroOf] at h
    obtain ⟨p, hp, rfl⟩ := List.mem_map.mp h
    exact Or.inl ⟨p, hp, rfl⟩
  · obtain ⟨j, hj, hq2⟩ := List.mem_flatMap.mp h
    obtain ⟨p, hp, rfl⟩ := List.mem_map.mp hq2
    exact Or.inr ⟨j, hj, p, hp, rfl⟩

theorem blockOf_codeRoute (df_cum : List CumPoint) (t f n : ℕ) (name : String)
    (q : NormPoint) (hq : q ∈ blockOf df_cum t f n name) : q.codeRoute = name := by
  rcases mem_blockOf df_cum t f n name q hq with ⟨p, hp, rfl⟩ | ⟨j, _, p, hp, rfl⟩ <;>
    exact mem_sliceOf_route df_cum name p (List.mem_of_mem_filter hp)

theorem filter_blockOf (df_cum : List CumPoint) (t f n : ℕ) (name r : String) :
    (blockOf df_cum t f n name).filter (fun q => q.codeRoute = r) =
      if name = r then blockOf df_cum t f n name else [] := by
  split
  · case isTrue hnr =>
    refine List.filter_eq_self.mpr (fun q hq => ?_)
    simp [blockOf_codeRoute df_cum t f n name q hq, hnr]
  · case isFalse hnr =>
    refine List.filter_eq_nil_iff.mpr (fun q hq => ?_)
    simp [blockOf_codeRoute df_cum t f n name q hq, hnr]

theorem filter_blocks (df_cum : List CumPoint) (t f n : ℕ) (r : String) :
    ∀ names : List String, names.Nodup →
      ((names.flatMap (fun name => blockOf df_cum t f n name)).filter
          (fun q => q.codeRoute = r)) =
        if r ∈ names then blockOf df_cum t f n r else []
  | [], _ => by simp
  | name :: ns, hnd => by
    rw [List.flatMap_cons, List.filter_append, filter_blockOf,
      filter_blocks df_cum t f n r ns (List.nodup_cons.mp hnd).2]
    by_cases hnr : name = r
    · subst hnr
      have : name ∉ ns := (List.nodup_cons.mp hnd).1
      simp [this]
    · have hmem : (r ∈ name :: ns) ↔ r ∈ ns :=
        List.mem_cons.trans (or_iff_right (fun h => hnr h.symm))
      by_cases hr : r ∈ ns <;> simp [hnr, hr, hmem]

theorem mem_map_route (l : List CumPoint) (r : String) :
    r ∈ l.map (fun p => p.codeRoute) ↔ sliceOf l r ≠ [] := by
  constructor
  · intro h
    obtain ⟨p, hp, rfl⟩ := List.mem_map.mp h
    intro hnil
    have : p ∈ sliceOf l p.codeRoute := List.mem_filter.mpr ⟨hp, by simp⟩
    rw [hnil] at this
    cases this
  · intro h
    cases hs : sliceOf l r with
    | nil => exact absurd hs h
    | cons p t =>
      have hp : p ∈ sliceOf l r := by rw [hs]; exact List.mem_cons_self _ _
      have := mem_sliceOf_route l r p hp
      exact List.mem_map.mpr ⟨p, List.mem_of_mem_filter hp, this⟩

theorem out_filter_route (rows : List Point) (time framerate : ℕ)
    (out : List NormPoint) (ht : time ≠ 0)
    (h : time_video_normalize rows time framerate = .ok out) (r : String) :
    out.filter (fun q => q.codeRoute = r) =
      if r ∈ uniqueList ((dfCum rows).map (fun p => p.codeRoute)) then
        blockOf (dfCum rows) time framerate (time * framerate) r
      else [] := by
  rw [time_video_normalize, if_neg ht] at h
  rw [routesLoop_ok _ _ _ _ _ _ _ h]
  exact filter_blocks _ _ _ _ r _ (nodup_uniqueList _)

theorem sliceOf_dfCum (rows : List Point) (r : String) :
    sliceOf (dfCum rows) r =
      cumsum 0 (sortByDate (rows.filter (fun p => p.codeRoute = r))) := by
  rw [sliceOf, dfCum, filter_calculate_cum, filter_sortByDate]

theorem normalizeSorted_filter (sorted : List Point) (time framerate : ℕ)
    (out : List NormPoint)
    (h : normalizeSorted sorted time framerate = .ok out) (r : String) :
    out.filter (fun q => q.codeRoute = r) =
      if r ∈ uniqueList ((calculate_cum_time_diff sorted).map (fun p => p.codeRoute)) then
        blockOf (calculate_cum_time_diff sorted) time framerate (time * framerate) r
      else [] := by
  rw [normalizeSorted] at h
  rw [routesLoop_ok _ _ _ _ _ _ _ h]
  exact filter_blocks _ _ _ _ r _ (nodup_uniqueList _)


theorem filter_route_vf (out : List NormPoint) (r : String) (k : ℕ) :
    out.filter (fun q => q.codeRoute = r ∧ q.videoFrame = k) =
      (out.filter (fun q => q.codeRoute = r)).filter (fun q => q.videoFrame = k) := by
  rw [List.filter_filter]
  exact List.filter_congr (fun q _ => by simp [Bool.and_comm])

theorem filter_vf_windows (slice : List CumPoint) (td : ℚ) (i : ℕ) :
    ∀ js : List ℕ, js.Nodup →
      ((js.flatMap
          (fun j => (slice.filter (fun p => inWindow td j p)).map (setVF j))).filter
        (fun q => q.videoFrame = i)) =
        if i ∈ js then (slice.filter (fun p => inWindow td i p)).map (setVF i) else []
  | [], _ => by simp
  | j :: js, hnd => by
    rw [List.flatMap_cons, List.filter_append,
      filter_vf_windows slice td i js (List.nodup_cons.mp hnd).2]
    have hhead : ((slice.filter (fun p => inWindow td j p)).map (setVF j)).filter
        (fun q => q.videoFrame = i) =
        if j = i then (slice.filter (fun p => inWindow td i p)).map (setVF i) else [] := by
      split
      · case isTrue hji =>
        subst hji
        refine List.filter_eq_self.mpr (fun q hq => ?_)
        obtain ⟨p, hp, rfl⟩ := List.mem_map.mp hq
        simp [setVF]
      · case isFalse hji =>
        refine List.filter_eq_nil_iff.mpr (fun q hq => ?_)
        obtain ⟨p, hp, rfl⟩ := List.mem_map.mp hq
        simp [setVF, hji]
    rw [hhead]
    by_cases hji : j = i
    · subst hji
      have : j ∉ js := (List.nodup_cons.mp hnd).1
      simp [this]
    · have hmem : (i ∈ j :: js) ↔ i ∈ js :=
        List.mem_cons.trans (or_iff_right (fun hh => hji hh.symm))
      by_cases hi : i ∈ js <;> simp [hji, hi, hmem]

theorem frameZero_filter_vf (df_cum : List CumPoint) (name : String) (i : ℕ)
    (hi : 1 ≤ i) :
    (frameZeroOf df_cum name).filter (fun q => q.videoFrame = i) = [] := by
  refine List.filter_eq_nil_iff.mpr (fun q hq => ?_)
  rw [frameZeroOf] at hq
  obtain ⟨p, hp, rfl⟩ := List.mem_map.mp hq
  simp only [setVF, decide_eq_true_eq]
  omega

theorem windows_filter_vf0 (slice : List CumPoint) (td : ℚ) (n : ℕ) :
    (((List.range' 1 n).flatMap
        (fun j => (slice.filter (fun p => inWindow td j p)).map (setVF j))).filter
      (fun q => q.videoFrame = 0)) = [] := by
  refine List.filter_eq_nil_iff.mpr (fun q hq => ?_)
  obtain ⟨j, hj, hq2⟩ := List.mem_flatMap.mp hq
  obtain ⟨p, hp, rfl⟩ := List.mem_map.mp hq2
  have h1 : 1 ≤ j := (List.mem_range'_1.mp hj).1
  simp only [setVF, decide_eq_true_eq]
  omega

theorem sliceOf_empty_of_not_mem (df_cum : List CumPoint) (r : String)
    (h : r ∉ uniqueList (df_cum.map (fun p => p.codeRoute))) :
    sliceOf df_cum r = [] := by
  by_contra hne
  exact h ((mem_uniqueList _ _).mpr ((mem_map_route df_cum r).mpr hne))

/-- C1, amended claim.  In a completed run of time_video_normalize with
positive time, the rows carrying a given route and frame index i between one
and n_fps are exactly the rows of that route whose cumulative time falls in
window i, all of them, in slice order and possibly more than one (no
collapsing happens); the rows carrying frame zero are exactly the rows of the
route whose cumulative time is zero, which include the first point of the
track.  Synthesized points never appear in a completed run, because the
interpolation raises before returning. -/
theorem c1_amended (rows : List Point) (time framerate : ℕ) (out : List NormPoint)
    (r : String) (i : ℕ) (ht : time ≠ 0)
    (h : time_video_normalize rows time framerate = .ok out)
    (h1 : 1 ≤ i) (h2 : i ≤ time * framerate) :
    out.filter (fun q => q.codeRoute = r ∧ q.videoFrame = i) =
      ((sliceOf (dfCum rows) r).filter
        (fun p => inWindow (tdOf (dfCum rows) time framerate r) i p)).map (setVF i) ∧
    out.filter (fun q => q.codeRoute = r ∧ q.videoFrame = 0) =
      ((sliceOf (dfCum rows) r).filter (fun p => p.cumTimeDiff = 0)).map (setVF 0) := by
  rw [filter_route_vf, filter_route_vf, out_filter_route rows time framerate out ht h r]
  by_cases hr : r ∈ uniqueList ((dfCum rows).map (fun p => p.codeRoute))
  · rw [if_pos hr, blockOf, List.filter_append, List.filter_append,
      filter_vf_windows _ _ _ _ (List.nodup_range' 1 (time * framerate) 1 Nat.one_pos),
      frameZero_filter_vf _ _ i h1, windows_filter_vf0]
    have hirange : i ∈ List.range' 1 (time * framerate) :=
      List.mem_range'_1.mpr ⟨h1, by omega⟩
    rw [if_pos hirange]
    constructor
    · rw [List.nil_append]
    · rw [List.append_nil, frameZeroOf]
      refine List.filter_eq_self.mpr (fun q hq => ?_)
      obtain ⟨p, hp, rfl⟩ := List.mem_map.mp hq
      simp [setVF]
  · rw [if_neg hr]
    have hnil := sliceOf_empty_of_not_mem (dfCum rows) r hr
    rw [hnil]
    constructor <;> rfl

/-- C2, amended claim.  Noninterference across routes fails in general: a
route that reaches the interpolation call makes the whole call raise,
suppressing every route, and the unstable pandas quicksort may reorder
tied-date rows of a route depending on the other rows present.  It does hold
in the following form, for fixed time and framerate, whenever two inputs hold
exactly the same points of a route: on the time-zero branch the rows returned
for that route always coincide, and on the general branch they coincide for
every pair of date-sorted permutations the unstable sort may produce,
provided the dates within that route are pairwise distinct (so its sorted
slice is unique) and both calls return. -/
theorem c2_amended (T1 T2 : List Point) (time framerate : ℕ) (r : String)
    (hfil : T1.filter (fun p => p.codeRoute = r) = T2.filter (fun p => p.codeRoute = r)) :
    (∀ o1 o2, time_video_normalize T1 0 framerate = .ok o1 →
      time_video_normalize T2 0 framerate = .ok o2 →
      o1.filter (fun q => q.codeRoute = r) = o2.filter (fun q => q.codeRoute = r)) ∧
    (∀ s1 s2 o1 o2,
      (T1.filter (fun p => p.codeRoute = r)).Pairwise (fun a b => a.date ≠ b.date) →
      IsDateSorted T1 s1 → IsDateSorted T2 s2 →
      normalizeSorted s1 time framerate = .ok o1 →
      normalizeSorted s2 time framerate = .ok o2 →
      o1.filter (fun q => q.codeRoute = r) = o2.filter (fun q => q.codeRoute = r)) := by
  constructor
  · intro o1 o2 h1 h2
    rw [c5_zero_duration] at h1 h2
    injection h1 with h1
    injection h2 with h2
    rw [← h1, ← h2, List.filter_map, List.filter_map]
    rw [show ((fun q : NormPoint => decide (q.codeRoute = r)) ∘
        (fun p : Point => ({ toPoint := p, cumTimeDiff := none, videoFrame := 0 } :
          NormPoint))) = (fun p : Point => decide (p.codeRoute = r)) from rfl, hfil]
  · intro s1 s2 o1 o2 hdist hs1 hs2 h1 h2
    have p1 : (s1.filter (fun p => p.codeRoute = r)).Perm
        (T1.filter (fun p => p.codeRoute = r)) := hs1.1.filter _
    have p2 : (s2.filter (fun p => p.codeRoute = r)).Perm
        (T1.filter (fun p => p.codeRoute = r)) := by
      rw [hfil]
      exact hs2.1.filter _
    have hkey : s1.filter (fun p => p.codeRoute = r) =
        s2.filter (fun p => p.codeRoute = r) := by
      refine sorted_distinct_unique _ _ (p1.trans p2.symm)
        (hs1.2.sublist (List.filter_sublist _)) (hs2.2.sublist (List.filter_sublist _)) ?_
      exact (p1.pairwise_iff (fun h hh => h hh.symm)).mpr hdist
    have hmem : (r ∈ uniqueList ((calculate_cum_time_diff s1).map
          (fun p => p.codeRoute))) ↔
        (r ∈ uniqueList ((calculate_cum_time_diff s2).map (fun p => p.codeRoute))) := by
      rw [mem_uniqueList, mem_uniqueList, mem_map_route, mem_map_route, sliceOf, sliceOf,
        filter_calculate_cum, filter_calculate_cum, hkey]
    have hsl : sliceOf (calculate_cum_time_diff s1) r =
        sliceOf (calculate_cum_time_diff s2) r := by
      rw [sliceOf, sliceOf, filter_calculate_cum, filter_calculate_cum, hkey]
    have hblock : blockOf (calculate_cum_time_diff s1) time framerate
          (time * framerate) r =
        blockOf (calculate_cum_time_diff s2) time framerate (time * framerate) r := by
      rw [blockOf, blockOf, frameZeroOf, frameZeroOf, tdOf, tdOf, hsl]
    rw [normalizeSorted_filter s1 time framerate o1 h1 r,
      normalizeSorted_filter s2 time framerate o2 h2 r]
    by_cases hr : r ∈ uniqueList ((calculate_cum_time_diff s1).map (fun p => p.codeRoute))
    · rw [if_pos hr, if_pos (hmem.mp hr), hblock]
    · rw [if_neg hr, if_neg (fun hh => hr (hmem.mpr hh))]

/-- C6, confirmed.  For every route present in the input, provided the first
point of the route in date order has TimeDifference zero (the documented
data-model invariant) and the normalization call returns, the output holds at
least one row of that route tagged with video frame zero. -/
theorem c6_frame_zero_anchor (rows : List Point) (time framerate : ℕ) (r : String)
    (out : List NormPoint)
    (h : time_video_normalize rows time framerate = .ok out)
    (hpresent : ∃ p ∈ rows, p.codeRoute = r)
    (hfirst : ∀ r2 p l, (sortByDate rows).filter (fun q => q.codeRoute = r2) = p :: l →
      p.timeDifference = 0) :
    ∃ q ∈ out, q.codeRoute = r ∧ q.videoFrame = 0 := by
  by_cases ht : time = 0
  · subst ht
    rw [c5_zero_duration] at h
    obtain ⟨p, hp, hr⟩ := hpresent
    injection h with h
    rw [← h]
    exact ⟨{ toPoint := p, cumTimeDiff := none, videoFrame := 0 },
      List.mem_map.mpr ⟨p, hp, rfl⟩, hr, rfl⟩
  · have hfilne : rows.filter (fun p => p.codeRoute = r) ≠ [] := by
      obtain ⟨p, hp, hr⟩ := hpresent
      intro hnil
      have hmem : p ∈ rows.filter (fun p => p.codeRoute = r) :=
        List.mem_filter.mpr ⟨hp, by simp [hr]⟩
      rw [hnil] at hmem
      cases hmem
    obtain ⟨p, l, hpl⟩ : ∃ p l,
        (sortByDate rows).filter (fun q => q.codeRoute = r) = p :: l := by
      cases hc : (sortByDate rows).filter (fun q => q.codeRoute = r) with
      | nil =>
        rw [filter_sortByDate] at hc
        have hlen := length_sortByDate (rows.filter (fun p => p.codeRoute = r))
        rw [hc] at hlen
        exact absurd (List.length_eq_zero.mp hlen.symm) hfilne
      | cons p l => exact ⟨p, l, rfl⟩
    have htd := hfirst r p l hpl
    have hproute : p.codeRoute = r := by
      have hmem : p ∈ (sortByDate rows).filter (fun q => q.codeRoute = r) := by
        rw [hpl]
        exact List.mem_cons_self _ _
      simpa using (List.mem_filter.mp hmem).2
    have hslice : sliceOf (dfCum rows) r = cumsum 0 (p :: l) := by
      rw [sliceOf, dfCum, filter_calculate_cum, hpl]
    have hmemr : r ∈ uniqueList ((dfCum rows).map (fun p => p.codeRoute)) := by
      rw [mem_uniqueList, mem_map_route, hslice, cumsum]
      simp
    rw [time_video_normalize, if_neg ht] at h
    have hout := routesLoop_ok _ _ _ _ _ _ _ h
    refine ⟨setVF 0 { toPoint := p, cumTimeDiff := 0 + p.timeDifference }, ?_, ?_, rfl⟩
    · rw [hout]
      refine List.mem_flatMap.mpr ⟨r, hmemr, ?_⟩
      rw [blockOf]
      refine List.mem_append.mpr (Or.inl ?_)
      rw [frameZeroOf]
      refine List.mem_map.mpr
        ⟨{ toPoint := p, cumTimeDiff := 0 + p.timeDifference }, ?_, rfl⟩
      refine List.mem_filter.mpr ⟨?_, ?_⟩
      · rw [hslice, cumsum]
        exact List.mem_cons_self _ _
      · simp [htd]
    · exact hproute

/-- C9, confirmed.  A frame window of a route that holds no point and misses
its interpolation bracket (no point at or before the window start, or no
point after the window end) is silently skipped: the window step emits no row
and raises no error, only incrementing the counter, and in a completed run
the output holds no row of that route at that frame index. -/
theorem c9_gap_skip (rows : List Point) (time framerate : ℕ) (r : String)
    (i point_idx : ℕ) (out : List NormPoint)
    (hwin : (sliceOf (dfCum rows) r).filter
        (fun p => inWindow (tdOf (dfCum rows) time framerate r) i p) = [])
    (hbr : (sliceOf (dfCum rows) r).filter
          (fun p => p.cumTimeDiff ≤
            tdOf (dfCum rows) time framerate r * ((i : ℚ) - 1)) = [] ∨
        (sliceOf (dfCum rows) r).filter
          (fun p => tdOf (dfCum rows) time framerate r * (i : ℚ) < p.cumTimeDiff) = []) :
    windowStep (sliceOf (dfCum rows) r) (tdOf (dfCum rows) time framerate r) i
        point_idx = .ok ([], point_idx + 1) ∧
    (time ≠ 0 → 1 ≤ i → time_video_normalize rows time framerate = .ok out →
      out.filter (fun q => q.codeRoute = r ∧ q.videoFrame = i) = []) := by
  constructor
  · have hemp : ((sliceOf (dfCum rows) r).filter
        (fun p => inWindow (tdOf (dfCum rows) time framerate r) i p)).isEmpty = true := by
      rw [hwin]
      rfl
    rw [windowStep, if_pos hemp]
    rcases hbr with hb | hb
    · simp [hb]
    · rcases hst : ((sliceOf (dfCum rows) r).filter
          (fun p => p.cumTimeDiff ≤
            tdOf (dfCum rows) time framerate r * ((i : ℚ) - 1))).getLast? with _ | s <;>
        simp [hst, hb]
  · intro ht h1 h
    rw [filter_route_vf, out_filter_route rows time framerate out ht h r]
    by_cases hr : r ∈ uniqueList ((dfCum rows).map (fun p => p.codeRoute))
    · rw [if_pos hr, blockOf, List.filter_append,
        filter_vf_windows _ _ _ _ (List.nodup_range' 1 (time * framerate) 1 Nat.one_pos),
        frameZero_filter_vf _ _ i h1, List.nil_append]
      by_cases hirange : i ∈ List.range' 1 (time * framerate)
      · rw [if_pos hirange, hwin, List.map_nil]
      · rw [if_neg hirange]
    · rw [if_neg hr]
      rfl

/-- C1, witness. -/
theorem c1_amended_witness :
    c1Out.filter (fun q => q.codeRoute = "A" ∧ q.videoFrame = 1) =
      ((sliceOf (dfCum c1T) "A").filter
        (fun p => inWindow (tdOf (dfCum c1T) 1 1 "A") 1 p)).map (setVF 1) ∧
    c1Out.filter (fun q => q.codeRoute = "A" ∧ q.videoFrame = 0) =
      ((sliceOf (dfCum c1T) "A").filter (fun p => p.cumTimeDiff = 0)).map (setVF 0) :=
  c1_amended c1T 1 1 c1Out "A" 1 (by decide)
    (by norm_num [c1T, c1Out, mkPt, time_video_normalize, dfCum, calculate_cum_time_diff,
      sortByDate, insertByDate, uniqueList, cumsum, routesLoop, windowLoop, windowStep,
      sliceOf, tdOf, frameZeroOf, setVF, inWindow, List.range', List.filter_cons,
      Point.mk.injEq, NormPoint.mk.injEq, Except.map])
    (le_refl 1) (by norm_num)

/-- C2, witness. -/
theorem c2_amended_witness :
    c2Out1.filter (fun q => q.codeRoute = "B") =
      c2Out2.filter (fun q => q.codeRoute = "B") := by
  have hCB : ("C" : String) ≠ "B" := by decide
  have hfil : c2B.filter (fun p => p.codeRoute = "B") =
      (c2B ++ c2C).filter (fun p => p.codeRoute = "B") := by
    norm_num [c2B, c2C, mkPt, List.filter_cons, List.filter_append, hCB]
  refine (c2_amended c2B (c2B ++ c2C) 1 2 "B" hfil).2 c2B (c2B ++ c2C) c2Out1 c2Out2
    ?_ ?_ ?_ ?_ ?_
  · have hflB : c2B.filter (fun p => p.codeRoute = "B") = c2B :=
      List.filter_eq_self.mpr (by decide)
    rw [hflB]
    decide
  · exact ⟨List.Perm.refl _, by decide⟩
  · exact ⟨List.Perm.refl _, by decide⟩
  · norm_num [c2B, c2Out1, mkPt, normalizeSorted, calculate_cum_time_diff,
      uniqueList, cumsum, routesLoop, windowLoop, windowStep, sliceOf, tdOf,
      frameZeroOf, setVF, inWindow, List.range', List.filter_cons,
      Point.mk.injEq, NormPoint.mk.injEq, Except.map]
  · have hBC : ("B" : String) ≠ "C" := by decide
    norm_num [c2B, c2C, c2Out1, c2Out2, mkPt, normalizeSorted,
      calculate_cum_time_diff, uniqueList, cumsum, routesLoop, windowLoop, windowStep,
      sliceOf, tdOf, frameZeroOf, setVF, inWindow, List.range', List.filter_cons,
      Point.mk.injEq, NormPoint.mk.injEq, Except.map, hCB, hBC]

/-- C6, witness. -/
theorem c6_frame_zero_anchor_witness :
    ∃ q ∈ c2Out1, q.codeRoute = "B" ∧ q.videoFrame = 0 := by
  refine c6_frame_zero_anchor c2B 1 2 "B" c2Out1 ?_ ?_ ?_
  · norm_num [c2B, c2Out1, mkPt, time_video_normalize, dfCum, calculate_cum_time_diff,
      sortByDate, insertByDate, uniqueList, cumsum, routesLoop, windowLoop, windowStep,
      sliceOf, tdOf, frameZeroOf, setVF, inWindow, List.range', List.filter_cons,
      Point.mk.injEq, NormPoint.mk.injEq, Except.map]
  · exact ⟨mkPt "B" 10 0, by simp [c2B], rfl⟩
  · have hsort : sortByDate c2B = c2B := by
      norm_num [c2B, mkPt, sortByDate, insertByDate]
    intro r2 p l hh
    rw [hsort] at hh
    by_cases hB : ("B" : String) = r2
    · subst hB
      have hfl : c2B.filter (fun q => q.codeRoute = "B") = c2B :=
        List.filter_eq_self.mpr (by decide)
      rw [hfl] at hh
      simp only [c2B] at hh
      rw [← ((List.cons.injEq _ _ _ _).mp hh).1]
      rfl
    · have hfl : c2B.filter (fun q => q.codeRoute = r2) = [] :=
        List.filter_eq_nil_iff.mpr (fun a ha => by
          simp only [c2B, List.mem_cons, List.not_mem_nil, or_false] at ha
          rcases ha with rfl | rfl | rfl <;> simp [mkPt, hB])
      rw [hfl] at hh
      exact absurd hh (by simp)

/-- C9, witness. -/
theorem c9_gap_skip_witness :
    windowStep (sliceOf (dfCum [mkPt "A" 0 0]) "A") (tdOf (dfCum [mkPt "A" 0 0]) 1 1 "A")
      1 1 = .ok ([], 2) ∧
    c9OutA.filter (fun q => q.codeRoute = "A" ∧ q.videoFrame = 1) = [] := by
  have h := c9_gap_skip [mkPt "A" 0 0] 1 1 "A" 1 1 c9OutA
    (by norm_num [mkPt, dfCum, calculate_cum_time_diff, sortByDate, insertByDate,
      uniqueList, cumsum, sliceOf, tdOf, inWindow, List.filter_cons])
    (Or.inr (by norm_num [mkPt, dfCum, calculate_cum_time_diff, sortByDate, insertByDate,
      uniqueList, cumsum, sliceOf, tdOf, List.filter_cons]))
  refine ⟨h.1, h.2 (by decide) (le_refl 1) ?_⟩
  norm_num [c9OutA, mkPt, time_video_normalize, dfCum, calculate_cum_time_diff,
    sortByDate, insertByDate, uniqueList, cumsum, routesLoop, windowLoop, windowStep,
    sliceOf, tdOf, frameZeroOf, setVF, inWindow, List.range', List.filter_cons,
    Point.mk.injEq, NormPoint.mk.injEq, Except.map]

theorem atan2_zero_pos (x : ℝ) (hx : 0 < x) : atan2 0 x = 0 := by
  rw [atan2, if_pos hx, zero_div, Real.arctan_zero]

theorem atan2_pos_zero (y : ℝ) (hy : 0 < y) : atan2 y 0 = Real.pi / 2 := by
  rw [atan2, if_neg (lt_irrefl 0), if_neg (fun h => lt_irrefl 0 h.1),
    if_neg (fun h => lt_irrefl 0 h.1), if_pos ⟨rfl, hy⟩]

theorem atan2_zero_zero : atan2 0 0 = 0 := by
  rw [atan2, if_neg (lt_irrefl 0), if_neg (fun h => lt_irrefl 0 h.1),
    if_neg (fun h => lt_irrefl 0 h.1), if_neg (fun h => lt_irrefl 0 h.2),
    if_neg (fun h => lt_irrefl 0 h.2)]

theorem atan2_sin_cos (σ : ℝ) (h1 : -(Real.pi / 2) < σ) (h2 : σ < Real.pi / 2) :
    atan2 (Real.sin σ) (Real.cos σ) = σ := by
  have hc : 0 < Real.cos σ := Real.cos_pos_of_mem_Ioo ⟨h1, h2⟩
  rw [atan2, if_pos hc, ← Real.tan_eq_sin_div_cos, Real.arctan_tan h1 h2]

theorem sigmaIter_zero (sigma1 x : ℝ) : ∀ n : ℕ, sigmaIter 0 sigma1 x n = x
  | 0 => rfl
  | n + 1 => by
    rw [sigmaIter, sigmaIter_zero sigma1 x n, sigmaStep]
    ring

theorem bearing_c4 : get_bearing ⟨0, 0⟩ ⟨0, 1⟩ = 90 := by
  have h1 : radians 0 = 0 := by rw [radians, zero_mul]
  have h2 : radians 1 = Real.pi / 180 := by rw [radians, one_mul]
  simp only [get_bearing, h1, h2, sub_zero, zero_div, zero_add]
  have habs : ¬ Real.pi < |Real.pi / 180| := by
    rw [abs_of_pos (by positivity)]
    push_neg
    linarith [Real.pi_pos]
  rw [if_neg habs, Real.tan_pi_div_four, div_one, Real.log_one,
    atan2_pos_zero _ (by positivity)]
  have h90 : degreesR (Real.pi / 2) = 90 := by
    rw [degreesR]
    field_simp
    ring
  rw [h90, fmodR]
  have hfl : ⌊((90 : ℝ) + 360) / 360⌋ = (1 : ℤ) := by
    rw [Int.floor_eq_iff]
    constructor <;> norm_num
  rw [hfl]
  norm_num

theorem vincenty_equator (s : ℝ) (hs : 0 < s)
    (hlt : s / (wgs84a * (1 - wgs84f)) < Real.pi / 2) :
    vincentyDirect ⟨0, 0⟩ 90 s = ⟨0, degreesR (s / wgs84a)⟩ := by
  have hf1 : (0 : ℝ) < 1 - wgs84f := by norm_num [wgs84f]
  have ha : (0 : ℝ) < wgs84a := by norm_num [wgs84a]
  have h1 : radians 0 = 0 := by rw [radians, zero_mul]
  have h90 : radians 90 = Real.pi / 2 := by rw [radians]; ring
  simp only [vincentyDirect, h1, h90, Real.tan_zero, mul_zero, Real.arctan_zero,
    Real.sin_zero, Real.cos_zero, Real.cos_pi_div_two, Real.sin_pi_div_two,
    atan2_zero_zero, one_mul, mul_one, zero_mul, zero_add, add_zero, sub_zero,
    zero_sub, zero_div, one_pow]
  have hcos2 : (1 : ℝ) - 1 = 0 := by norm_num
  rw [hcos2]
  simp only [zero_mul, zero_div, zero_add, add_zero, mul_zero, mul_one]
  rw [sigmaIter_zero]
  set b := wgs84a * (1 - wgs84f) with hb
  have hbpos : 0 < b := by positivity
  have hσpos : 0 < s / b := div_pos hs hbpos
  have hσlt : s / b < Real.pi / 2 := hlt
  have hσgt : -(Real.pi / 2) < s / b := by
    linarith [Real.pi_pos]
  congr 1
  · rw [show (1 : ℝ) + 0 ^ 2 = 1 by norm_num, Real.sqrt_one, mul_one,
      atan2_zero_pos _ hf1, degreesR, zero_mul]
  · rw [atan2_sin_cos _ hσgt hσlt]
    congr 1
    rw [hb]
    field_simp
    ring

/-- C4, amended claim.  At the interpolation sanity scenario of spec section 8
(start at latitude 0, longitude 0, cumulative time 0; end at latitude 0,
longitude 1 with distance 111320 and TimeDifference 100; window width 50 and
point index 1) the values computed by utils.get_point_in_the_middle satisfy:
time_proportion equals one half, speed equals distance_proportion divided by
time_diff_proportion which equals 55660 / 50 = 1113.2 (not 1113.2 / 50), and
the longitude of the geographic position that lines 128-130 compute for the
synthesized point (via get_bearing and the ellipsoidal destination-point
projection of the external geopy library, modelled from the spec) lies
strictly between 0 and 1. -/
theorem c4_amended :
    time_proportionOf c4End 50 1 = 1 / 2 ∧
    speedOf c4End 50 1 = 1113.2 ∧
    0 < (middlePointOf c4Start c4End 50 1).lon ∧
    (middlePointOf c4Start c4End 50 1).lon < 1 := by
  have hd : distance_proportionOf c4End 50 1 = 55660 := by
    norm_num [distance_proportionOf, time_proportionOf, c4End]
  have hcast : middlePointOf c4Start c4End 50 1 =
      vincentyDirect ⟨0, 0⟩ (get_bearing ⟨0, 0⟩ ⟨0, 1⟩) (55660 / 1000) := by
    rw [middlePointOf, get_coordinates, hd]
    norm_num [c4Start, c4End]
  have hapos : (0 : ℝ) < wgs84a := by norm_num [wgs84a]
  have hlt : (55660 : ℝ) / 1000 / (wgs84a * (1 - wgs84f)) < Real.pi / 2 := by
    have h3 := Real.pi_gt_three
    have hbgt : (6356 : ℝ) < wgs84a * (1 - wgs84f) := by norm_num [wgs84a, wgs84f]
    rw [div_lt_iff₀ (by linarith)]
    nlinarith
  have hlon : (middlePointOf c4Start c4End 50 1).lon =
      degreesR (55660 / 1000 / wgs84a) := by
    rw [hcast, bearing_c4, vincenty_equator _ (by norm_num) hlt]
  refine ⟨by norm_num [time_proportionOf, c4End],
    by norm_num [speedOf, distance_proportionOf, time_diff_proportionOf,
      time_proportionOf, c4End], ?_, ?_⟩
  · rw [hlon, degreesR]
    exact mul_pos (by positivity) (div_pos (by norm_num) Real.pi_pos)
  · rw [hlon, degreesR]
    have h3 := Real.pi_gt_three
    have hagt : (6378 : ℝ) < wgs84a := by norm_num [wgs84a]
    rw [show (55660 : ℝ) / 1000 / wgs84a = 55.66 / wgs84a by norm_num,
      div_mul_div_comm, div_lt_one (by positivity)]
    have hp1 : (6378 : ℝ) * Real.pi < wgs84a * Real.pi :=
      mul_lt_mul_of_pos_right hagt Real.pi_pos
    have hp2 : (6378 : ℝ) * 3 < 6378 * Real.pi :=
      mul_lt_mul_of_pos_left h3 (by norm_num)
    linarith

end TrackAnim
